import Mathlib

/-!
Verification of the VCS repository (a simple single-user file version control
system written in C: `version.c`, `metadata.c`, `fileops.c`, `repo.c`).

Shallow embedding conventions:

* C strings (`char*` / fixed-size `char[]` buffers) are modelled as `List Char`
  (`CStr`).  `strncpy(dst, src, n-1)` followed by forced NUL termination is
  `List.take (n-1)`.
* File contents are lists of byte values (`List Nat`, each `< 256`; the djb2
  hash arithmetic wraps modulo `2 ^ 64` exactly where the C `unsigned long`
  wraps).
* The filesystem is an explicit `FS` state: the working directory
  (`workFiles`, an association list from file name to content — the C code's
  `fopen(path, "rb")` of a working file), the snapshot store (`snapshots`,
  keyed by `(name, version)`, the C path `.vcs/versions/<name>/v<N>`), the
  metadata file `versions.meta` (`metaFile`, `none` when absent), and a flag
  `metaWritable` modelling whether `fopen(metadata_path, "w")` succeeds.
  `mkdir` of the per-file version directory in `create_version_file` either
  succeeds or yields `EEXIST`, both non-errors, so it is not modelled as a
  failure point.
* `malloc` of a `FileVersion` in `load_metadata` returns uninitialized memory;
  the arbitrary initial contents are passed explicitly as a `junk` record.
  (Allocation failure itself — a `continue` in C — is not a failure mode any
  claim depends on and allocation is assumed to succeed.)
* `time(NULL)` is passed in as an explicit `now : Nat` parameter.
* `atoi` / `atol` are modelled faithfully (skip leading whitespace, optional
  sign, longest digit run, `0` when no digits), on unbounded `Int` — the
  C values in play fit in `int` / `long`.
* The metadata file content is a raw `CStr`; `fgets` line splitting is
  `splitNL` (the C line buffer is 1024 bytes and every line written by
  `save_metadata` from in-bounds records is at most 927 bytes, so a line is
  never split across two `fgets` calls in the cases the theorems cover).
-/

abbrev CStr := List Char

/-- One decimal/hexadecimal digit as printed by `printf` (`%d`, `%ld`, `%lx`). -/
def digitCh (n : Nat) : Char :=
  match n with
  | 0 => '0' | 1 => '1' | 2 => '2' | 3 => '3' | 4 => '4'
  | 5 => '5' | 6 => '6' | 7 => '7' | 8 => '8' | 9 => '9'
  | 10 => 'a' | 11 => 'b' | 12 => 'c' | 13 => 'd' | 14 => 'e' | 15 => 'f'
  | _ => '*'

/-- Digit expansion in base `b`, most significant first, fuel-structural so
that it reduces definitionally.  `fuel = n + 1` always suffices. -/
def digitsCore (b : Nat) : Nat → Nat → CStr → CStr
  | 0, _, acc => acc
  | fuel + 1, n, acc =>
    if n < b then digitCh n :: acc
    else digitsCore b fuel (n / b) (digitCh (n % b) :: acc)

/-- Decimal rendering of a natural number, as `printf %d` / `%ld` would. -/
def natToChars (n : Nat) : CStr := digitsCore 10 (n + 1) n []

/-- `printf("%d", n)` / `%ld` on a (possibly negative) integer. -/
def intToChars (n : Int) : CStr :=
  if n < 0 then '-' :: natToChars n.natAbs else natToChars n.toNat

/-- Lowercase hexadecimal rendering, as `printf %lx` would. -/
def hexChars (n : Nat) : CStr := digitsCore 16 (n + 1) n []

/-- `printf("%08lx", n)`: hex, zero-padded on the left to at least 8 chars. -/
def hexPad8 (n : Nat) : CStr :=
  List.replicate (8 - (hexChars n).length) '0' ++ hexChars n

/-- The whitespace class skipped by C `atoi`. -/
def isSpaceC (c : Char) : Bool :=
  c == ' ' || c == '\t' || c == '\n' || c == '\x0b' || c == '\x0c' || c == '\r'

def skipSpaceC : CStr → CStr
  | [] => []
  | c :: cs => if isSpaceC c then skipSpaceC cs else c :: cs

/-- The digit-accumulation loop of `atoi`: consume the longest digit run. -/
def atoiLoop : CStr → Nat → Nat
  | [], acc => acc
  | c :: cs, acc => if c.isDigit then atoiLoop cs (acc * 10 + (c.toNat - 48)) else acc

/-- C `atoi` / `atol`: skip whitespace, optional sign, longest digit run,
`0` if no digits.  (Overflow is not modelled; every value the program
serializes fits.) -/
def atoiChars (s : CStr) : Int :=
  match skipSpaceC s with
  | [] => 0
  | c :: rest =>
    if c = '-' then -(atoiLoop rest 0 : Int)
    else if c = '+' then (atoiLoop rest 0 : Int)
    else (atoiLoop (c :: rest) 0 : Int)

/-- `strncmp(s, pat, pat.length) == 0`: does `s` start with `pat`? -/
def startsWithC (pat s : CStr) : Bool :=
  match pat, s with
  | [], _ => true
  | _ :: _, [] => false
  | p :: ps, c :: cs => if p = c then startsWithC ps cs else false

/-- `strtok(s, "|")` token stream: maximal runs of non-`'|'` characters
(empty tokens are skipped, exactly as `strtok` skips leading/repeated
delimiters). -/
def splitPipeAux : CStr → CStr → List CStr
  | [], cur => if cur = [] then [] else [cur.reverse]
  | c :: cs, cur =>
    if c = '|' then
      if cur = [] then splitPipeAux cs [] else cur.reverse :: splitPipeAux cs []
    else splitPipeAux cs (c :: cur)

def splitPipe (s : CStr) : List CStr := splitPipeAux s []

/-- `fgets` line decomposition of a file's content: split at `'\n'`, keeping
empty segments (each returned segment is a line without its trailing
newline). -/
def splitNLAux : CStr → CStr → List CStr
  | [], cur => [cur.reverse]
  | c :: cs, cur =>
    if c = '\n' then cur.reverse :: splitNLAux cs [] else splitNLAux cs (c :: cur)

def splitNL (s : CStr) : List CStr := splitNLAux s []

/-- Join lines into file content, each line newline-terminated (the
`fprintf(file, "...\n")` calls of `save_metadata`). -/
def joinLines (ls : List CStr) : CStr :=
  ls.foldr (fun l acc => l ++ '\n' :: acc) []

/-- `strrchr(path, '/')`: the final path component (the whole string when no
`'/'` occurs), as used by `create_version_file`. -/
def basenameC : CStr → CStr
  | [] => []
  | c :: cs => if c = '/' then basenameC cs else if '/' ∈ cs then basenameC cs else c :: cs

/-! ## Data model (`vcs.h`) -/

/-- `struct FileVersion` (vcs.h): one version record.  The `next` pointer of
the C struct is represented by membership in the repository's list. -/
structure FileVersion where
  filename : CStr
  hash : CStr
  version_number : Int
  timestamp : Int
  comment : CStr
  file_size : Int
deriving DecidableEq

/-- `struct Repository` (vcs.h).  `base_path` only feeds path construction,
which the `FS` state abstracts, so it is omitted.  `version_list` is the
linked list, head first. -/
structure Repository where
  total_versions : Int
  version_list : List FileVersion
deriving DecidableEq

/-- Explicit filesystem state (see the header comment). -/
structure FS where
  workFiles : List (CStr × List Nat)
  snapshots : List ((CStr × Int) × List Nat)
  metaFile : Option CStr
  metaWritable : Bool
deriving DecidableEq

/-- First-match association lookup for the working directory (opening a file
by name). -/
def lookupWork : List (CStr × List Nat) → CStr → Option (List Nat)
  | [], _ => none
  | (k, v) :: rest, f => if k = f then some v else lookupWork rest f

/-- First-match association lookup for the snapshot store (the file
`.vcs/versions/<name>/v<N>`). -/
def lookupSnap : List ((CStr × Int) × List Nat) → CStr → Int → Option (List Nat)
  | [], _, _ => none
  | ((k, kv), c) :: rest, f, v =>
    if k = f ∧ kv = v then some c else lookupSnap rest f v

/-! ## Hasher (`fileops.c: generate_file_hash`) -/

/-- One djb2 step `h = h * 33 + c` on the C `unsigned long` (64-bit,
wrapping). -/
def djb2Step (h c : Nat) : Nat := (h * 33 + c) % (2 ^ 64)

/-- The content accumulator: seed 5381, fold every byte. -/
def djb2 (content : List Nat) : Nat := content.foldl djb2Step 5381

/-- The accumulator after also folding in the file size (`stat` st_size, which
equals the content length). -/
def hashWithSize (content : List Nat) : Nat := djb2Step (djb2 content) content.length

/-- `snprintf(hash_str, 64, "%08lx%ld", hash, (long)time(NULL) % 10000)`.
The output is at most 16 + 4 chars, far below the 63-char `snprintf` bound,
which therefore never truncates. -/
def hashChars (content : List Nat) (now : Nat) : CStr :=
  hexPad8 (hashWithSize content) ++ natToChars (now % 10000)

/-- `generate_file_hash`: `NULL` (here `none`) when the file cannot be
opened. -/
def generate_file_hash (fs : FS) (filepath : CStr) (now : Nat) : Option CStr :=
  match lookupWork fs.workFiles filepath with
  | none => none
  | some content => some (hashChars content now)

/-! ## Snapshot store (`fileops.c`) -/

/-- `create_version_file`: copy the working file `filepath` to
`.vcs/versions/<basename>/v<version>`.  Fails (`-1`) when the source cannot
be opened; the `mkdir` of the version directory treats `EEXIST` as success. -/
def create_version_file (fs : FS) (filepath : CStr) (version : Int) : Int × FS :=
  match lookupWork fs.workFiles filepath with
  | none => (-1, fs)
  | some content =>
    (0, { fs with snapshots := ((basenameC filepath, version), content) :: fs.snapshots })

/-- `restore_version_file`: copy `.vcs/versions/<filename>/v<version>` back
over the working file; `-1` when the snapshot does not exist. -/
def restore_version_file (fs : FS) (filename : CStr) (version : Int) : Int × FS :=
  match lookupSnap fs.snapshots filename version with
  | none => (-1, fs)
  | some content => (0, { fs with workFiles := (filename, content) :: fs.workFiles })

/-! ## Metadata store (`metadata.c`) -/

/-- The body (after `FILE=`) of the line `save_metadata` writes for one
record: the `fprintf` format `%s|VERSION=%d|TIMESTAMP=%ld|SIZE=%ld|HASH=%s|COMMENT=%s`,
written with the `'|'` separators explicit. -/
def fileBody (v : FileVersion) : CStr :=
  v.filename ++ '|' ::
  ("VERSION=".data ++ intToChars v.version_number ++ '|' ::
  ("TIMESTAMP=".data ++ intToChars v.timestamp ++ '|' ::
  ("SIZE=".data ++ intToChars v.file_size ++ '|' ::
  ("HASH=".data ++ v.hash ++ '|' ::
  ("COMMENT=".data ++ v.comment)))))

/-- The `FILE=...` line `save_metadata` writes for one record (without the
trailing newline added by `joinLines`). -/
def fileLine (v : FileVersion) : CStr := "FILE=".data ++ fileBody v

/-- All lines written by `save_metadata`, in order. -/
def metadataLines (repo : Repository) : List CStr :=
  "# VCS Metadata File".data ::
  ("TOTAL_VERSIONS=".data ++ intToChars repo.total_versions) ::
  [] ::
  "# File Versions".data ::
  repo.version_list.map fileLine

/-- `save_metadata`: whole-file rewrite of `versions.meta`; `-1` when the
file cannot be opened for writing. -/
def save_metadata (repo : Repository) (fs : FS) : Int × FS :=
  if fs.metaWritable then
    (0, { fs with metaFile := some (joinLines (metadataLines repo)) })
  else (-1, fs)

/-- Parsing of one `FILE=` line body (after the `FILE=` prefix) in
`load_metadata`.  `junk` is the uninitialized `malloc` contents: a field
whose token is absent or misprefixed keeps its junk value.  Token `i` of
`strtok` feeds field `i`; `strncpy` bounds are the C buffer sizes. -/
def parseFileLine (junk : FileVersion) (rest : CStr) : FileVersion :=
  let toks := splitPipe rest
  let v1 := match toks.get? 0 with
    | some t => { junk with filename := t.take 255 }
    | none => junk
  let v2 := match toks.get? 1 with
    | some t => if startsWithC "VERSION=".data t
                then { v1 with version_number := atoiChars (t.drop 8) } else v1
    | none => v1
  let v3 := match toks.get? 2 with
    | some t => if startsWithC "TIMESTAMP=".data t
                then { v2 with timestamp := atoiChars (t.drop 10) } else v2
    | none => v2
  let v4 := match toks.get? 3 with
    | some t => if startsWithC "SIZE=".data t
                then { v3 with file_size := atoiChars (t.drop 5) } else v3
    | none => v3
  let v5 := match toks.get? 4 with
    | some t => if startsWithC "HASH=".data t
                then { v4 with hash := (t.drop 5).take 63 } else v4
    | none => v4
  match toks.get? 5 with
    | some t => if startsWithC "COMMENT=".data t
                then { v5 with comment := ((t.drop 8).take 511).takeWhile (· ≠ '\n') } else v5
    | none => v5

/-- Processing of one `fgets` line by `load_metadata`: skip comments and
empty lines, absorb `TOTAL_VERSIONS=`, prepend a record for `FILE=` lines,
skip anything else. -/
def processLine (junk : FileVersion) (repo : Repository) (line : CStr) : Repository :=
  match line with
  | [] => repo
  | c :: _ =>
    if c = '#' ∨ c = '\n' then repo
    else if startsWithC "TOTAL_VERSIONS=".data line then
      { repo with total_versions := atoiChars (line.drop 15) }
    else if startsWithC "FILE=".data line then
      { repo with version_list := parseFileLine junk (line.drop 5) :: repo.version_list }
    else repo

/-- `load_metadata`: success (`0`) when the file is absent; otherwise fold
every line.  Never fails on any line. -/
def load_metadata (repo : Repository) (fs : FS) (junk : FileVersion) : Int × Repository :=
  match fs.metaFile with
  | none => (0, repo)
  | some content => (0, (splitNL content).foldl (processLine junk) repo)

/-- `find_file_version`: exact-match scan. -/
def find_file_version (repo : Repository) (filename : CStr) (version : Int) : Option FileVersion :=
  repo.version_list.find? (fun v => decide (v.filename = filename ∧ v.version_number = version))

/-- The loop step of `get_latest_version`. -/
def glvStep (fname : CStr) (latest : Int) (v : FileVersion) : Int :=
  if v.filename = fname then
    (if v.version_number > latest then v.version_number else latest)
  else latest

/-- `get_latest_version`: highest version number recorded for `fname`, `0`
when none. -/
def get_latest_version (repo : Repository) (fname : CStr) : Int :=
  repo.version_list.foldl (glvStep fname) 0

/-! ## Versioning engine (`version.c`) -/

/-- `checkin_file`: compute `next = get_latest_version + 1`, store the
snapshot, build the record (hash degrades to `"unknown"` on hash failure,
size to `0` on `stat` failure), prepend it, bump `total_versions`, and
persist via `save_metadata` — whose result the C code discards.  Returns the
new version number on success, `-1` when the snapshot copy fails. -/
def checkin_file (repo : Repository) (fs : FS) (filename comment : CStr) (now : Nat) :
    Int × Repository × FS :=
  let next_version := get_latest_version repo filename + 1
  let cr := create_version_file fs filename next_version
  if cr.1 ≠ 0 then (-1, repo, fs)
  else
    let fs1 := cr.2
    let hash : CStr := match generate_file_hash fs1 filename now with
      | some h => h.take 63
      | none => "unknown".data
    let fsize : Int := match lookupWork fs1.workFiles filename with
      | some c => (c.length : Int)
      | none => 0
    let new_version : FileVersion :=
      { filename := filename.take 255
        hash := hash
        version_number := next_version
        timestamp := (now : Int)
        comment := comment.take 511
        file_size := fsize }
    let repo' : Repository :=
      { total_versions := repo.total_versions + 1
        version_list := new_version :: repo.version_list }
    let fs2 := (save_metadata repo' fs1).2
    (next_version, repo', fs2)

/-- `checkout_file`: find the record, restore the snapshot over the working
file.  The repository pointer is only read; the returned repository is the
state of `*repo` after the call. -/
def checkout_file (repo : Repository) (fs : FS) (filename : CStr) (version : Int) :
    Int × Repository × FS :=
  match find_file_version repo filename version with
  | none => (-1, repo, fs)
  | some _ =>
    let r := restore_version_file fs filename version
    (r.1, repo, r.2)

/-- `list_versions`: the rows printed are the records whose filename matches,
in list-traversal order (head first); `-1` when there are none.  The display
formatting (timestamp rendering, 12-char hash column) is presentation only
and not part of the returned data. -/
def list_versions (repo : Repository) (filename : CStr) : Int × List FileVersion :=
  let rows := repo.version_list.filter (fun v => decide (v.filename = filename))
  (if rows = [] then -1 else 0, rows)

/-- `rollback_to_version`: check the target exists, restore it into the
working directory, then check the restored content in with the automatic
comment `"Rollback to version %d"`. -/
def rollback_to_version (repo : Repository) (fs : FS) (filename : CStr) (version : Int)
    (now : Nat) : Int × Repository × FS :=
  match find_file_version repo filename version with
  | none => (-1, repo, fs)
  | some _ =>
    let rr := restore_version_file fs filename version
    if rr.1 ≠ 0 then (-1, repo, rr.2)
    else
      let comment := "Rollback to version ".data ++ intToChars version
      let res := checkin_file repo rr.2 filename comment now
      (if res.1 > 0 then 0 else -1, res.2.1, res.2.2)

/-! ## Repository lifecycle (`repo.c`) -/

/-- Environment outcomes for `init_repository`: whether each `mkdir` and the
final `fopen(versions.meta, "w")` succeed. -/
structure InitEnv where
  mkdirVcsOk : Bool
  mkdirVersionsOk : Bool
  mkdirTempOk : Bool
  metaOpenOk : Bool
deriving DecidableEq

/-- `init_repository`: `-1` as soon as a `mkdir` fails; the initial metadata
file write is attempted but its failure is silently ignored.  The second
component is the metadata file content created (`none` when the `fopen`
failed or initialization aborted earlier). -/
def init_repository (env : InitEnv) : Int × Option CStr :=
  if env.mkdirVcsOk = false then (-1, none)
  else if env.mkdirVersionsOk = false then (-1, none)
  else if env.mkdirTempOk = false then (-1, none)
  else if env.metaOpenOk then
    (0, some (joinLines ["# VCS Metadata File".data, "TOTAL_VERSIONS=0".data]))
  else (0, none)

/-- `load_repository`: fresh in-memory state (`total_versions = 0`, empty
list), then `load_metadata`.  In the model `load_metadata` always returns 0,
so loading always yields a repository. -/
def load_repository (fs : FS) (junk : FileVersion) : Repository :=
  (load_metadata { total_versions := 0, version_list := [] } fs junk).2

/-! ## Well-formedness: records that fit the C buffers and survive the
pipe/newline-delimited text format -/

/-- A text field that serializes without corrupting the line structure:
no `'|'` (the `strtok` delimiter) and no `'\n'` (the line terminator). -/
def cleanField (s : CStr) : Prop := '|' ∉ s ∧ '\n' ∉ s

/-- A record whose fields fit their C buffers (`char[256]` / `char[64]` /
`char[512]`, NUL included) and whose text fields are clean; the filename must
also be nonempty (an empty filename makes `strtok` skip straight past it). -/
def wfRecord (v : FileVersion) : Prop :=
  v.filename ≠ [] ∧ v.filename.length ≤ 255 ∧ cleanField v.filename ∧
  v.hash.length ≤ 63 ∧ cleanField v.hash ∧
  v.comment.length ≤ 511 ∧ cleanField v.comment

/-- Every record of the repository is well-formed. -/
def wfRepo (repo : Repository) : Prop := ∀ v ∈ repo.version_list, wfRecord v

instance : DecidablePred cleanField := fun _ => by unfold cleanField; infer_instance

instance : DecidablePred wfRecord := fun _ => by unfold wfRecord; infer_instance

instance (repo : Repository) : Decidable (wfRepo repo) := by unfold wfRepo; infer_instance

/-- `k` successive check-ins of the same file (the working file is present
throughout; check-in never removes it), collecting the returned version
numbers. -/
def checkinSeq (repo : Repository) (fs : FS) (f comment : CStr) (now : Nat) :
    Nat → List Int × Repository × FS
  | 0 => ([], repo, fs)
  | k + 1 =>
    let r := checkin_file repo fs f comment now
    let rest := checkinSeq r.2.1 r.2.2 f comment now k
    (r.1 :: rest.1, rest.2.1, rest.2.2)

/-! ## Helper lemmas: digit rendering and `atoi` -/

theorem digitsCore_factor_acc (b : Nat) :
    ∀ fuel n acc, digitsCore b fuel n acc = digitsCore b fuel n [] ++ acc := by
  intro fuel
  induction fuel with
  | zero => intro n acc; simp [digitsCore]
  | succ fuel ih =>
    intro n acc
    by_cases h : n < b
    · simp [digitsCore, h]
    · simp only [digitsCore, if_neg h]
      rw [ih (n / b) (digitCh (n % b) :: acc), ih (n / b) [digitCh (n % b)]]
      simp

theorem digitsCore_head (b : Nat) (hb : 2 ≤ b) :
    ∀ fuel n acc, n < fuel →
      ∃ d rest, d < b ∧ digitsCore b fuel n acc = digitCh d :: rest := by
  intro fuel
  induction fuel with
  | zero => intro n acc h; omega
  | succ fuel ih =>
    intro n acc h
    by_cases hn : n < b
    · exact ⟨n, acc, hn, by simp [digitsCore, hn]⟩
    · have hdiv : n / b < fuel := by
        have h1 : n / b < n := Nat.div_lt_self (by omega) (by omega)
        omega
      obtain ⟨d, rest, hd, heq⟩ := ih (n / b) (digitCh (n % b) :: acc) hdiv
      exact ⟨d, rest, hd, by simp only [digitsCore, if_neg hn]; exact heq⟩

theorem digitsCore_mem (b : Nat) (hb : 0 < b) :
    ∀ fuel n acc c, c ∈ digitsCore b fuel n acc →
      (∃ d, d < b ∧ c = digitCh d) ∨ c ∈ acc := by
  intro fuel
  induction fuel with
  | zero => intro n acc c h; simp [digitsCore] at h; exact Or.inr h
  | succ fuel ih =>
    intro n acc c h
    by_cases hn : n < b
    · simp only [digitsCore, if_pos hn, List.mem_cons] at h
      rcases h with h | h
      · exact Or.inl ⟨n, hn, h⟩
      · exact Or.inr h
    · simp only [digitsCore, if_neg hn] at h
      rcases ih (n / b) (digitCh (n % b) :: acc) c h with h' | h'
      · exact Or.inl h'
      · rcases List.mem_cons.mp h' with h'' | h''
        · exact Or.inl ⟨n % b, Nat.mod_lt _ hb, h''⟩
        · exact Or.inr h''

theorem digitCh_isDigit (d : Nat) (h : d < 10) : (digitCh d).isDigit = true := by
  interval_cases d <;> rfl

theorem digitCh_toNat (d : Nat) (h : d < 10) : (digitCh d).toNat - 48 = d := by
  interval_cases d <;> rfl

theorem natToChars_all_digit (n : Nat) : ∀ c ∈ natToChars n, c.isDigit = true := by
  intro c hc
  rcases digitsCore_mem 10 (by omega) (n + 1) n [] c hc with ⟨d, hd, rfl⟩ | h
  · exact digitCh_isDigit d hd
  · simp at h

theorem digitsCore10_value :
    ∀ fuel n, n < fuel →
      (digitsCore 10 fuel n []).foldl (fun a c => a * 10 + (c.toNat - 48)) 0 = n := by
  intro fuel
  induction fuel with
  | zero => intro n h; omega
  | succ fuel ih =>
    intro n h
    by_cases hn : n < 10
    · simp [digitsCore, hn, digitCh_toNat n hn]
    · have hdiv : n / 10 < fuel := by
        have h1 : n / 10 < n := Nat.div_lt_self (by omega) (by omega)
        omega
      simp only [digitsCore, if_neg hn]
      rw [digitsCore_factor_acc, List.foldl_append, ih (n / 10) hdiv]
      simp [digitCh_toNat (n % 10) (Nat.mod_lt _ (by omega))]
      omega

theorem atoiLoop_all_digits :
    ∀ cs acc, (∀ c ∈ cs, c.isDigit = true) →
      atoiLoop cs acc = cs.foldl (fun a c => a * 10 + (c.toNat - 48)) acc := by
  intro cs
  induction cs with
  | nil => intro acc _; simp [atoiLoop]
  | cons c cs ih =>
    intro acc h
    have hc : c.isDigit = true := h c (by simp)
    simp only [atoiLoop, hc, if_pos, List.foldl_cons]
    exact ih _ (fun x hx => h x (by simp [hx]))

theorem atoiLoop_natToChars (n : Nat) : atoiLoop (natToChars n) 0 = n := by
  rw [atoiLoop_all_digits _ _ (natToChars_all_digit n)]
  exact digitsCore10_value (n + 1) n (by omega)

theorem isDigit_not_space (c : Char) (h : c.isDigit = true) : isSpaceC c = false := by
  simp only [isSpaceC, Bool.or_eq_false_iff, beq_eq_false_iff_ne]
  refine ⟨⟨⟨⟨⟨?_, ?_⟩, ?_⟩, ?_⟩, ?_⟩, ?_⟩ <;> rintro rfl <;> simp [Char.isDigit] at h

theorem isDigit_ne_minus (c : Char) (h : c.isDigit = true) : c ≠ '-' := by
  rintro rfl; simp [Char.isDigit] at h

theorem isDigit_ne_plus (c : Char) (h : c.isDigit = true) : c ≠ '+' := by
  rintro rfl; simp [Char.isDigit] at h


theorem skipSpaceC_no_space (c : Char) (cs : CStr) (h : isSpaceC c = false) :
    skipSpaceC (c :: cs) = c :: cs := by
  simp [skipSpaceC, h]

theorem atoiChars_of_digits (c : Char) (rest : CStr) (hdig : c.isDigit = true) :
    atoiChars (c :: rest) = (atoiLoop (c :: rest) 0 : Int) := by
  simp only [atoiChars, skipSpaceC_no_space c rest (isDigit_not_space c hdig)]
  simp only [if_neg (isDigit_ne_minus c hdig), if_neg (isDigit_ne_plus c hdig)]

theorem atoiChars_natToChars (n : Nat) : atoiChars (natToChars n) = n := by
  obtain ⟨d, rest, hd, heq⟩ := digitsCore_head 10 (by omega) (n + 1) n [] (Nat.lt_succ_self n)
  have heq' : natToChars n = digitCh d :: rest := heq
  have hval : atoiLoop (natToChars n) 0 = n := atoiLoop_natToChars n
  rw [heq'] at hval ⊢
  rw [atoiChars_of_digits _ _ (digitCh_isDigit d hd), hval]

theorem atoiChars_intToChars (i : Int) : atoiChars (intToChars i) = i := by
  by_cases h : i < 0
  · simp only [intToChars, if_pos h]
    rw [atoiChars]
    simp only [skipSpaceC_no_space '-' _ (by decide), if_pos rfl]
    rw [atoiLoop_natToChars]
    simp only [if_true]
    omega
  · simp only [intToChars, if_neg h]
    rw [atoiChars_natToChars]
    omega

theorem natToChars_clean (n : Nat) : '|' ∉ natToChars n ∧ '\n' ∉ natToChars n := by
  constructor <;>
  · intro hc
    rcases digitsCore_mem 10 (by omega) (n + 1) n [] _ hc with ⟨d, hd, hdc⟩ | h
    · interval_cases d <;> exact absurd hdc (by decide)
    · simp at h

theorem intToChars_clean (i : Int) : '|' ∉ intToChars i ∧ '\n' ∉ intToChars i := by
  rcases natToChars_clean i.natAbs with ⟨ha1, ha2⟩
  rcases natToChars_clean i.toNat with ⟨hb1, hb2⟩
  by_cases h : i < 0
  · simp only [intToChars, if_pos h]
    constructor <;>
    · intro hc
      rcases List.mem_cons.mp hc with h' | h'
      · exact absurd h' (by decide)
      · first | exact ha1 h' | exact ha2 h'
  · simp only [intToChars, if_neg h]
    exact ⟨hb1, hb2⟩

theorem hexChars_clean (n : Nat) : '|' ∉ hexChars n ∧ '\n' ∉ hexChars n := by
  constructor <;>
  · intro hc
    rcases digitsCore_mem 16 (by omega) (n + 1) n [] _ hc with ⟨d, hd, hdc⟩ | h
    · interval_cases d <;> exact absurd hdc (by decide)
    · simp at h

theorem hexPad8_clean (n : Nat) : '|' ∉ hexPad8 n ∧ '\n' ∉ hexPad8 n := by
  rcases hexChars_clean n with ⟨h1, h2⟩
  constructor <;>
  · intro hc
    rcases List.mem_append.mp hc with h' | h'
    · have := List.eq_of_mem_replicate h'
      simp_all
    · first | exact h1 h' | exact h2 h'

/-! ## Helper lemmas: `strtok`, line splitting, prefixes -/

theorem startsWithC_append (p rest : CStr) : startsWithC p (p ++ rest) = true := by
  induction p with
  | nil => rfl
  | cons c cs ih => simp [startsWithC, ih]

theorem splitPipeAux_seg (tok : CStr) (h : '|' ∉ tok) :
    ∀ cs cur, splitPipeAux (tok ++ cs) cur = splitPipeAux cs (tok.reverse ++ cur) := by
  induction tok with
  | nil => intro cs cur; simp
  | cons c tk ih =>
    intro cs cur
    have hc : c ≠ '|' := fun hh => h (by simp [hh])
    have htk : '|' ∉ tk := fun hh => h (by simp [hh])
    simp only [List.cons_append, splitPipeAux, if_neg (Ne.symm hc ∘ Eq.symm), List.append_eq]
    rw [ih htk]
    simp

theorem splitPipeAux_pipe (cs cur : CStr) (h : cur ≠ []) :
    splitPipeAux ('|' :: cs) cur = cur.reverse :: splitPipeAux cs [] := by
  simp [splitPipeAux, h]

theorem splitPipeAux_last (cur : CStr) (h : cur ≠ []) : splitPipeAux [] cur = [cur.reverse] := by
  simp [splitPipeAux, h]

theorem splitNLAux_seg (l : CStr) (h : '\n' ∉ l) :
    ∀ cs cur, splitNLAux (l ++ cs) cur = splitNLAux cs (l.reverse ++ cur) := by
  induction l with
  | nil => intro cs cur; simp
  | cons c tk ih =>
    intro cs cur
    have hc : c ≠ '\n' := fun hh => h (by simp [hh])
    have htk : '\n' ∉ tk := fun hh => h (by simp [hh])
    simp only [List.cons_append, splitNLAux, if_neg (Ne.symm hc ∘ Eq.symm), List.append_eq]
    rw [ih htk]
    simp

theorem splitNL_joinLines (ls : List CStr) (h : ∀ l ∈ ls, '\n' ∉ l) :
    splitNL (joinLines ls) = ls ++ [[]] := by
  induction ls with
  | nil => rfl
  | cons l ls ih =>
    have hl : '\n' ∉ l := h l (by simp)
    have hls : ∀ x ∈ ls, '\n' ∉ x := fun x hx => h x (by simp [hx])
    have hjoin : joinLines (l :: ls) = l ++ '\n' :: joinLines ls := by
      simp [joinLines]
    rw [splitNL, hjoin, splitNLAux_seg l hl]
    simp only [List.append_nil, splitNLAux, if_pos rfl, List.reverse_reverse]
    rw [← splitNL, ih hls]
    rfl

theorem splitPipeAux_end (tok cur : CStr) (h : '|' ∉ tok) (hne : cur ≠ []) :
    splitPipeAux tok cur = [cur.reverse ++ tok] := by
  have h1 := splitPipeAux_seg tok h [] cur
  simp only [List.append_nil] at h1
  rw [h1, splitPipeAux_last]
  · simp
  · simp [List.append_eq_nil, hne]

theorem splitPipe_fileBody (v : FileVersion) (hv : wfRecord v) :
    splitPipe (fileBody v) =
      [v.filename,
       "VERSION=".data ++ intToChars v.version_number,
       "TIMESTAMP=".data ++ intToChars v.timestamp,
       "SIZE=".data ++ intToChars v.file_size,
       "HASH=".data ++ v.hash,
       "COMMENT=".data ++ v.comment] := by
  obtain ⟨hne, _, ⟨hfp, _⟩, _, ⟨hhp, _⟩, _, hcp, _⟩ := hv
  have hcat : ∀ (a b : CStr), '|' ∉ a → '|' ∉ b → '|' ∉ a ++ b := by
    intro a b ha hb hmem
    rcases List.mem_append.mp hmem with h | h
    · exact ha h
    · exact hb h
  have hcatne : ∀ (a b : CStr), a ≠ [] → (a ++ b : CStr) ≠ [] := by
    intro a b ha hh
    exact ha (List.append_eq_nil.mp hh).1
  have hrev : ∀ l : CStr, l ≠ [] → l.reverse ++ ([] : CStr) ≠ [] := by
    intro l hl
    simp [hl]
  have h1 := hcat _ _ (by decide : '|' ∉ ("VERSION=".data : CStr)) (intToChars_clean v.version_number).1
  have h2 := hcat _ _ (by decide : '|' ∉ ("TIMESTAMP=".data : CStr)) (intToChars_clean v.timestamp).1
  have h3 := hcat _ _ (by decide : '|' ∉ ("SIZE=".data : CStr)) (intToChars_clean v.file_size).1
  have h4 := hcat _ _ (by decide : '|' ∉ ("HASH=".data : CStr)) hhp
  have h5 := hcat _ _ (by decide : '|' ∉ ("COMMENT=".data : CStr)) hcp
  rw [splitPipe, fileBody]
  rw [splitPipeAux_seg v.filename hfp, splitPipeAux_pipe _ _ (hrev _ hne)]
  rw [splitPipeAux_seg _ h1, splitPipeAux_pipe _ _ (hrev _ (hcatne _ _ (by decide)))]
  rw [splitPipeAux_seg _ h2, splitPipeAux_pipe _ _ (hrev _ (hcatne _ _ (by decide)))]
  rw [splitPipeAux_seg _ h3, splitPipeAux_pipe _ _ (hrev _ (hcatne _ _ (by decide)))]
  rw [splitPipeAux_seg _ h4, splitPipeAux_pipe _ _ (hrev _ (hcatne _ _ (by decide)))]
  rw [splitPipeAux_seg _ (by decide : '|' ∉ ("COMMENT=".data : CStr))]
  rw [splitPipeAux_end v.comment _ hcp (by decide)]
  simp

theorem takeWhile_no_nl (l : CStr) (h : '\n' ∉ l) :
    l.takeWhile (fun c => c ≠ '\n') = l := by
  induction l with
  | nil => rfl
  | cons c cs ih =>
    have hc : c ≠ '\n' := fun hh => h (by simp [hh])
    have hcs : '\n' ∉ cs := fun hh => h (by simp [hh])
    simp only [List.takeWhile_cons, decide_eq_true_eq]
    rw [if_pos hc, ih hcs]

theorem parseFileLine_fileBody (junk v : FileVersion) (hv : wfRecord v) :
    parseFileLine junk (fileBody v) = v := by
  have hd8 : ∀ X : CStr, ("VERSION=".data ++ X).drop 8 = X := fun X => List.drop_left "VERSION=".data X
  have hd10 : ∀ X : CStr, ("TIMESTAMP=".data ++ X).drop 10 = X := fun X => List.drop_left "TIMESTAMP=".data X
  have hd5 : ∀ X : CStr, ("SIZE=".data ++ X).drop 5 = X := fun X => List.drop_left "SIZE=".data X
  have hd5h : ∀ X : CStr, ("HASH=".data ++ X).drop 5 = X := fun X => List.drop_left "HASH=".data X
  have hd8c : ∀ X : CStr, ("COMMENT=".data ++ X).drop 8 = X := fun X => List.drop_left "COMMENT=".data X
  obtain ⟨hne, hflen, ⟨hfp, hfn⟩, hhlen, ⟨hhp, hhn⟩, hclen, hcp, hcn⟩ := hv
  rw [parseFileLine, splitPipe_fileBody v ⟨hne, hflen, ⟨hfp, hfn⟩, hhlen, ⟨hhp, hhn⟩, hclen, hcp, hcn⟩]
  simp only [List.get?, startsWithC_append, if_pos, hd8, hd10, hd5, hd5h, hd8c,
    atoiChars_intToChars]
  rw [List.take_of_length_le hflen, List.take_of_length_le hhlen,
    List.take_of_length_le hclen, takeWhile_no_nl v.comment hcn]

theorem processLine_nil (junk : FileVersion) (repo : Repository) :
    processLine junk repo [] = repo := rfl

theorem processLine_skip (junk : FileVersion) (repo : Repository) (rest : CStr) :
    processLine junk repo ('#' :: rest) = repo := by
  simp [processLine]

theorem processLine_total (junk : FileVersion) (repo : Repository) (t : Int) :
    processLine junk repo ("TOTAL_VERSIONS=".data ++ intToChars t) =
      { repo with total_versions := t } := by
  have hcons : ("TOTAL_VERSIONS=".data ++ intToChars t : CStr)
      = 'T' :: ("OTAL_VERSIONS=".data ++ intToChars t) := rfl
  have hdrop : ∀ X : CStr, ("TOTAL_VERSIONS=".data ++ X).drop 15 = X :=
    fun X => List.drop_left "TOTAL_VERSIONS=".data X
  rw [hcons]
  simp only [processLine]
  rw [if_neg (by decide), ← hcons, if_pos (startsWithC_append _ _), hdrop,
    atoiChars_intToChars]

theorem processLine_fileLine (junk : FileVersion) (repo : Repository) (v : FileVersion) :
    processLine junk repo (fileLine v) =
      { repo with version_list := parseFileLine junk (fileBody v) :: repo.version_list } := by
  have hcons : fileLine v = 'F' :: ("ILE=".data ++ fileBody v) := rfl
  have hT : startsWithC "TOTAL_VERSIONS=".data ('F' :: ("ILE=".data ++ fileBody v)) = false := rfl
  have hdrop : (fileLine v).drop 5 = fileBody v := List.drop_left "FILE=".data (fileBody v)
  have hS : startsWithC ['F', 'I', 'L', 'E', '='] (fileLine v) = true :=
    startsWithC_append "FILE=".data (fileBody v)
  rw [hcons]
  simp only [processLine]
  rw [if_neg (by decide), hT, ← hcons, hS]
  simp [hdrop]

theorem foldl_fileLines (junk : FileVersion) :
    ∀ (vs : List FileVersion) (repo : Repository), (∀ v ∈ vs, wfRecord v) →
      (vs.map fileLine).foldl (processLine junk) repo =
        { repo with version_list := vs.reverse ++ repo.version_list } := by
  intro vs
  induction vs with
  | nil => intro repo _; simp
  | cons v vs ih =>
    intro repo h
    simp only [List.map_cons, List.foldl_cons]
    rw [processLine_fileLine junk repo v, parseFileLine_fileBody junk v (h v (by simp))]
    rw [ih _ (fun x hx => h x (by simp [hx]))]
    simp

theorem fileLine_no_nl (v : FileVersion) (hv : wfRecord v) : '\n' ∉ fileLine v := by
  obtain ⟨_, _, ⟨_, hfn⟩, _, ⟨_, hhn⟩, _, _, hcn⟩ := hv
  have c1 := (intToChars_clean v.version_number).2
  have c2 := (intToChars_clean v.timestamp).2
  have c3 := (intToChars_clean v.file_size).2
  have d1 : '\n' ∉ ("FILE=".data : CStr) := by decide
  have d2 : '\n' ∉ ("VERSION=".data : CStr) := by decide
  have d3 : '\n' ∉ ("TIMESTAMP=".data : CStr) := by decide
  have d4 : '\n' ∉ ("SIZE=".data : CStr) := by decide
  have d5 : '\n' ∉ ("HASH=".data : CStr) := by decide
  have d6 : '\n' ∉ ("COMMENT=".data : CStr) := by decide
  have dp : ¬ ('\n' = '|') := by decide
  simp [fileLine, fileBody, List.mem_append, List.mem_cons,
    hfn, hhn, hcn, c1, c2, c3, d1, d2, d3, d4, d5, d6, dp]

theorem metadataLines_no_nl (repo : Repository) (hwf : wfRepo repo) :
    ∀ l ∈ metadataLines repo, '\n' ∉ l := by
  intro l hl
  simp only [metadataLines, List.mem_cons, List.mem_map] at hl
  rcases hl with rfl | rfl | rfl | rfl | ⟨v, hv, rfl⟩
  · decide
  · intro hmem
    rcases List.mem_append.mp hmem with h | h
    · exact absurd h (by decide)
    · exact (intToChars_clean repo.total_versions).2 h
  · simp
  · decide
  · exact fileLine_no_nl v (hwf v hv)

/-- Core round-trip: loading the file written by `save_metadata` into a fresh
repository restores `total_versions` and the records **in reverse order**
(`load_metadata` prepends each parsed `FILE=` line). -/
theorem load_of_save (repo : Repository) (fs : FS) (junk : FileVersion) (t0 : Int)
    (hwf : wfRepo repo) (hw : fs.metaWritable = true) :
    (load_metadata { total_versions := t0, version_list := [] }
        (save_metadata repo fs).2 junk).2 =
      { total_versions := repo.total_versions,
        version_list := repo.version_list.reverse } := by
  have hsave : (save_metadata repo fs).2 = { fs with metaFile := some (joinLines (metadataLines repo)) } := by
    simp [save_metadata, hw]
  have htot : ∀ (r : Repository) (t : Int),
      processLine junk r
        ('T' :: 'O' :: 'T' :: 'A' :: 'L' :: '_' :: 'V' :: 'E' :: 'R' :: 'S' :: 'I' :: 'O' ::
          'N' :: 'S' :: '=' :: intToChars t) = { r with total_versions := t } :=
    fun r t => processLine_total junk r t
  have e1 : ("# VCS Metadata File".data : CStr) = '#' :: " VCS Metadata File".data := rfl
  have e4 : ("# File Versions".data : CStr) = '#' :: " File Versions".data := rfl
  rw [hsave, load_metadata]
  simp only
  rw [splitNL_joinLines _ (metadataLines_no_nl repo hwf), metadataLines]
  simp only [List.cons_append, List.nil_append, List.foldl_cons, e1, e4, processLine_skip,
    processLine_nil, htot]
  rw [List.foldl_append, foldl_fileLines junk repo.version_list _ hwf]
  simp [processLine_nil]

/-! ## Helper lemmas: `get_latest_version` as a max fold -/

theorem glvStep_comm (f : CStr) (a : Int) (x y : FileVersion) :
    glvStep f (glvStep f a x) y = glvStep f (glvStep f a y) x := by
  unfold glvStep; split_ifs <;> omega

theorem glvStep_ge (f : CStr) (a : Int) (x : FileVersion) : a ≤ glvStep f a x := by
  unfold glvStep; split_ifs <;> omega

theorem glvStep_mono (f : CStr) (a b : Int) (x : FileVersion) (h : a ≤ b) :
    glvStep f a x ≤ glvStep f b x := by
  unfold glvStep; split_ifs <;> omega

theorem foldl_glv_swap (f : CStr) :
    ∀ (l : List FileVersion) (a : Int) (x : FileVersion),
      List.foldl (glvStep f) (glvStep f a x) l = glvStep f (List.foldl (glvStep f) a l) x := by
  intro l
  induction l with
  | nil => intro a x; rfl
  | cons y l ih =>
    intro a x
    simp only [List.foldl_cons]
    rw [glvStep_comm f a x y, ih]

theorem foldl_glv_reverse (f : CStr) (l : List FileVersion) :
    ∀ a : Int, List.foldl (glvStep f) a l.reverse = List.foldl (glvStep f) a l := by
  induction l with
  | nil => intro a; rfl
  | cons x l ih =>
    intro a
    simp only [List.reverse_cons, List.foldl_append, List.foldl_cons, List.foldl_nil]
    rw [ih a]
    exact (foldl_glv_swap f l a x).symm

theorem foldl_glv_ge (f : CStr) :
    ∀ (l : List FileVersion) (a : Int), a ≤ List.foldl (glvStep f) a l := by
  intro l
  induction l with
  | nil => intro a; exact le_refl a
  | cons x l ih =>
    intro a
    simp only [List.foldl_cons]
    exact le_trans (glvStep_ge f a x) (ih (glvStep f a x))

theorem foldl_glv_mono (f : CStr) :
    ∀ (l : List FileVersion) (a b : Int), a ≤ b →
      List.foldl (glvStep f) a l ≤ List.foldl (glvStep f) b l := by
  intro l
  induction l with
  | nil => intro a b h; exact h
  | cons x l ih =>
    intro a b h
    simp only [List.foldl_cons]
    exact ih _ _ (glvStep_mono f a b x h)

theorem foldl_glv_absorb (f : CStr) :
    ∀ (l : List FileVersion) (a : Int), List.foldl (glvStep f) 0 l ≤ a →
      List.foldl (glvStep f) a l = a := by
  intro l
  induction l with
  | nil => intro a _; rfl
  | cons x l ih =>
    intro a h
    simp only [List.foldl_cons] at h ⊢
    have hx : glvStep f 0 x ≤ a :=
      le_trans (foldl_glv_ge f l (glvStep f 0 x)) h
    have h0 : (0 : Int) ≤ glvStep f 0 x := glvStep_ge f 0 x
    have hax : glvStep f a x = a := by
      unfold glvStep at hx ⊢; split_ifs at hx ⊢ <;> omega
    rw [hax]
    exact ih a (le_trans (foldl_glv_mono f l 0 (glvStep f 0 x) h0) h)

theorem foldl_glv_prepend (f : CStr) (l : List FileVersion) (rec : FileVersion)
    (hf : rec.filename = f) (hv : rec.version_number = List.foldl (glvStep f) 0 l + 1) :
    List.foldl (glvStep f) 0 (rec :: l) = List.foldl (glvStep f) 0 l + 1 := by
  have h0 : (0 : Int) ≤ List.foldl (glvStep f) 0 l := foldl_glv_ge f l 0
  simp only [List.foldl_cons]
  have hstep : glvStep f 0 rec = List.foldl (glvStep f) 0 l + 1 := by
    unfold glvStep
    rw [if_pos hf, hv, if_pos (by omega)]
    rfl
  rw [hstep]
  exact foldl_glv_absorb f l _ (by omega)

theorem get_latest_version_nonneg (repo : Repository) (f : CStr) :
    0 ≤ get_latest_version repo f :=
  foldl_glv_ge f repo.version_list 0

/-! ## Helper lemmas: evaluating the engine operations -/

/-- The record built by a successful check-in. -/
def checkinRecord (repo : Repository) (f comment : CStr) (now : Nat)
    (content : List Nat) : FileVersion :=
  { filename := f.take 255
    hash := (hashChars content now).take 63
    version_number := get_latest_version repo f + 1
    timestamp := (now : Int)
    comment := comment.take 511
    file_size := (content.length : Int) }

theorem checkin_file_success (repo : Repository) (fs : FS) (f comment : CStr) (now : Nat)
    (content : List Nat) (h : lookupWork fs.workFiles f = some content) :
    checkin_file repo fs f comment now =
      (get_latest_version repo f + 1,
       { total_versions := repo.total_versions + 1
         version_list := checkinRecord repo f comment now content :: repo.version_list },
       (save_metadata
         { total_versions := repo.total_versions + 1
           version_list := checkinRecord repo f comment now content :: repo.version_list }
         { fs with snapshots :=
             ((basenameC f, get_latest_version repo f + 1), content) :: fs.snapshots }).2) := by
  rw [checkin_file]
  simp only [create_version_file, h, generate_file_hash, checkinRecord]
  norm_num

theorem checkin_file_fail (repo : Repository) (fs : FS) (f comment : CStr) (now : Nat)
    (h : lookupWork fs.workFiles f = none) :
    checkin_file repo fs f comment now = (-1, repo, fs) := by
  rw [checkin_file]
  simp [create_version_file, h]

theorem save_metadata_workFiles (repo : Repository) (fs : FS) :
    ((save_metadata repo fs).2).workFiles = fs.workFiles := by
  unfold save_metadata; split_ifs <;> rfl

theorem save_metadata_snapshots (repo : Repository) (fs : FS) :
    ((save_metadata repo fs).2).snapshots = fs.snapshots := by
  unfold save_metadata; split_ifs <;> rfl

theorem save_metadata_metaWritable (repo : Repository) (fs : FS) :
    ((save_metadata repo fs).2).metaWritable = fs.metaWritable := by
  unfold save_metadata; split_ifs <;> rfl

theorem save_metadata_fail (repo : Repository) (fs : FS) (h : fs.metaWritable = false) :
    save_metadata repo fs = (-1, fs) := by
  simp [save_metadata, h]

theorem save_metadata_ok (repo : Repository) (fs : FS) (h : fs.metaWritable = true) :
    save_metadata repo fs = (0, { fs with metaFile := some (joinLines (metadataLines repo)) }) := by
  simp [save_metadata, h]

theorem basenameC_no_slash (f : CStr) (h : '/' ∉ f) : basenameC f = f := by
  cases f with
  | nil => rfl
  | cons c cs =>
    have hc : c ≠ '/' := fun hh => h (by simp [hh])
    have hcs : '/' ∉ cs := fun hh => h (by simp [hh])
    simp [basenameC, hc, hcs]

theorem lookupWork_cons_self (ws : List (CStr × List Nat)) (f : CStr) (c : List Nat) :
    lookupWork ((f, c) :: ws) f = some c := by
  simp [lookupWork]

theorem lookupWork_cons_ne (ws : List (CStr × List Nat)) (f g : CStr) (c : List Nat)
    (h : f ≠ g) : lookupWork ((f, c) :: ws) g = lookupWork ws g := by
  simp [lookupWork, h]

theorem lookupSnap_cons_self (ss : List ((CStr × Int) × List Nat)) (f : CStr) (n : Int)
    (c : List Nat) : lookupSnap (((f, n), c) :: ss) f n = some c := by
  simp [lookupSnap]

theorem checkin_glv (repo : Repository) (fs : FS) (f comment : CStr) (now : Nat)
    (content : List Nat) (h : lookupWork fs.workFiles f = some content)
    (hlen : f.length ≤ 255) :
    get_latest_version (checkin_file repo fs f comment now).2.1 f =
      get_latest_version repo f + 1 := by
  rw [checkin_file_success repo fs f comment now content h]
  show List.foldl (glvStep f) 0 (checkinRecord repo f comment now content :: repo.version_list)
    = _
  exact foldl_glv_prepend f repo.version_list _
    (by simp [checkinRecord, List.take_of_length_le hlen]) rfl

theorem checkin_workFiles (repo : Repository) (fs : FS) (f comment : CStr) (now : Nat)
    (content : List Nat) (h : lookupWork fs.workFiles f = some content) :
    (checkin_file repo fs f comment now).2.2.workFiles = fs.workFiles := by
  rw [checkin_file_success repo fs f comment now content h, save_metadata_workFiles]

theorem checkinRecord_wf (repo : Repository) (f comment : CStr) (now : Nat)
    (content : List Nat) (hne : f ≠ []) (hlen : f.length ≤ 255)
    (hcf : cleanField f) (hcc : cleanField comment) :
    wfRecord (checkinRecord repo f comment now content) := by
  have htake : f.take 255 = f := List.take_of_length_le hlen
  have hhash : cleanField (hashChars content now) := by
    constructor <;> intro hmem <;> rcases List.mem_append.mp hmem with hm | hm
    · exact (hexPad8_clean _).1 hm
    · exact (natToChars_clean _).1 hm
    · exact (hexPad8_clean _).2 hm
    · exact (natToChars_clean _).2 hm
  refine ⟨by simp [checkinRecord, htake, hne], ?_, ?_, ?_, ?_, ?_, ?_⟩
  · simp only [checkinRecord]
    rw [htake]; exact hlen
  · simp only [checkinRecord]; rw [htake]; exact hcf
  · simp only [checkinRecord, List.length_take]; omega
  · exact ⟨fun hm => hhash.1 (List.take_subset _ _ hm),
           fun hm => hhash.2 (List.take_subset _ _ hm)⟩
  · simp only [checkinRecord, List.length_take]; omega
  · exact ⟨fun hm => hcc.1 (List.take_subset _ _ hm),
           fun hm => hcc.2 (List.take_subset _ _ hm)⟩

theorem checkinSeq_versions (f : CStr) (hlen : f.length ≤ 255) :
    ∀ (k : Nat) (repo : Repository) (fs : FS) (comment : CStr) (now : Nat)
      (content : List Nat), lookupWork fs.workFiles f = some content →
      (checkinSeq repo fs f comment now k).1 =
        (List.range k).map (fun i : Nat => get_latest_version repo f + (i : Int) + 1) := by
  intro k
  induction k with
  | zero => intro repo fs comment now content _; simp [checkinSeq]
  | succ k ih =>
    intro repo fs comment now content h
    have hwf' : lookupWork (checkin_file repo fs f comment now).2.2.workFiles f = some content := by
      rw [checkin_workFiles repo fs f comment now content h]; exact h
    simp only [checkinSeq]
    rw [ih _ _ comment now content hwf', checkin_glv repo fs f comment now content h hlen]
    have hret : (checkin_file repo fs f comment now).1 = get_latest_version repo f + 1 := by
      rw [checkin_file_success repo fs f comment now content h]
    have hfun : (fun i : Nat => get_latest_version repo f + 1 + (i : Int) + 1) =
        ((fun i : Nat => get_latest_version repo f + (i : Int) + 1) ∘ Nat.succ) := by
      funext i
      simp only [Function.comp]
      push_cast
      ring
    rw [hret, List.range_succ_eq_map, List.map_cons, List.map_map, hfun]
    congr 1
    simp

/-! ## Claim theorems -/

/-- C6: check-in of a filename whose source file does not exist in the
working directory returns an error (`-1`) and leaves everything unchanged:
no record is appended, `total_versions` is not incremented (the repository is
returned exactly as it was), and the filesystem — in particular the
persisted metadata file — is not touched. -/
theorem c6_checkin_missing_file (repo : Repository) (fs : FS) (f comment : CStr)
    (now : Nat) (h : lookupWork fs.workFiles f = none) :
    (checkin_file repo fs f comment now).1 = -1 ∧
    (checkin_file repo fs f comment now).2.1 = repo ∧
    (checkin_file repo fs f comment now).2.2 = fs := by
  rw [checkin_file_fail repo fs f comment now h]
  simp

theorem c6_checkin_missing_file_witness :
    lookupWork (FS.mk [] [] none true).workFiles "a.txt".data = none ∧
    (checkin_file ⟨0, []⟩ ⟨[], [], none, true⟩ "a.txt".data "first".data 5).1 = -1 ∧
    (checkin_file ⟨0, []⟩ ⟨[], [], none, true⟩ "a.txt".data "first".data 5).2.1 = ⟨0, []⟩ ∧
    (checkin_file ⟨0, []⟩ ⟨[], [], none, true⟩ "a.txt".data "first".data 5).2.2 =
      ⟨[], [], none, true⟩ :=
  ⟨by decide, c6_checkin_missing_file ⟨0, []⟩ ⟨[], [], none, true⟩ "a.txt".data "first".data 5
    (by decide)⟩

/-- C9: check-out never mutates the version history: the repository comes
back exactly as it went in, the snapshot store and the metadata file are
untouched, and the only working-directory entry that can change is the one
for the checked-out filename — whether the operation succeeds or fails. -/
theorem c9_checkout_frame (repo : Repository) (fs : FS) (f : CStr) (v : Int) :
    (checkout_file repo fs f v).2.1 = repo ∧
    (checkout_file repo fs f v).2.2.snapshots = fs.snapshots ∧
    (checkout_file repo fs f v).2.2.metaFile = fs.metaFile ∧
    (checkout_file repo fs f v).2.2.metaWritable = fs.metaWritable ∧
    ∀ g : CStr, g ≠ f →
      lookupWork (checkout_file repo fs f v).2.2.workFiles g = lookupWork fs.workFiles g := by
  rw [checkout_file]
  cases hfind : find_file_version repo f v with
  | none => simp
  | some fv =>
    simp only
    rw [restore_version_file]
    cases hsnap : lookupSnap fs.snapshots f v with
    | none => simp
    | some content =>
      refine ⟨?_, ?_, ?_, ?_, fun g hg => ?_⟩ <;>
        first
        | rfl
        | trivial
        | exact lookupWork_cons_ne fs.workFiles f g content (Ne.symm hg)

theorem c9_checkout_frame_witness :
    (("b.txt".data : CStr) ≠ "a.txt".data) ∧
    lookupWork (checkout_file ⟨1, [⟨"a.txt".data, "h1".data, 1, 0, "c".data, 1⟩]⟩
        ⟨[("a.txt".data, [104])], [(("a.txt".data, 1), [105])], none, true⟩
        "a.txt".data 1).2.2.workFiles "b.txt".data
      = lookupWork [("a.txt".data, [104])] "b.txt".data :=
  ⟨by decide,
   (c9_checkout_frame ⟨1, [⟨"a.txt".data, "h1".data, 1, 0, "c".data, 1⟩]⟩
      ⟨[("a.txt".data, [104])], [(("a.txt".data, 1), [105])], none, true⟩
      "a.txt".data 1).2.2.2.2 "b.txt".data (by decide)⟩

/-- C10: `init_repository` reports success (returns 0) whenever the three
`mkdir` calls succeed, regardless of whether the initial `versions.meta` can
be opened for writing; when that `fopen` fails, no metadata file is created
and the failure is silently ignored. -/
theorem c10_init_ignores_meta_failure (env : InitEnv)
    (h1 : env.mkdirVcsOk = true) (h2 : env.mkdirVersionsOk = true)
    (h3 : env.mkdirTempOk = true) :
    (init_repository env).1 = 0 ∧
    (env.metaOpenOk = false → (init_repository env).2 = none) := by
  rcases env with ⟨a, b, c, d⟩
  have ha : a = true := h1
  have hb : b = true := h2
  have hc : c = true := h3
  subst ha hb hc
  cases d <;> simp [init_repository]

theorem c10_init_ignores_meta_failure_witness :
    (init_repository ⟨true, true, true, false⟩).1 = 0 ∧
    (init_repository ⟨true, true, true, false⟩).2 = none :=
  ⟨(c10_init_ignores_meta_failure ⟨true, true, true, false⟩ rfl rfl rfl).1,
   (c10_init_ignores_meta_failure ⟨true, true, true, false⟩ rfl rfl rfl).2 rfl⟩

/-- C7 (amended): the engine surfaces snapshot-store failures as its own
error result, but the metadata-store save at the end of check-in has its
result discarded: when the metadata file cannot be written, check-in still
returns the new version number (a success), and the persisted metadata is
left unwritten. -/
theorem c7_checkin_ignores_save_failure (repo : Repository) (fs : FS) (f comment : CStr)
    (now : Nat) (content : List Nat)
    (h : lookupWork fs.workFiles f = some content) (hw : fs.metaWritable = false) :
    (checkin_file repo fs f comment now).1 = get_latest_version repo f + 1 ∧
    0 < (checkin_file repo fs f comment now).1 ∧
    (checkin_file repo fs f comment now).2.2.metaFile = fs.metaFile ∧
    (save_metadata (checkin_file repo fs f comment now).2.1
      (checkin_file repo fs f comment now).2.2).1 = -1 := by
  have hnn := get_latest_version_nonneg repo f
  rw [checkin_file_success repo fs f comment now content h]
  have hw1 : ({ fs with snapshots :=
      ((basenameC f, get_latest_version repo f + 1), content) :: fs.snapshots } : FS).metaWritable
      = false := hw
  rw [save_metadata_fail _ _ hw1]
  refine ⟨rfl, by omega, rfl, ?_⟩
  rw [save_metadata_fail _ _ hw1]

/-- C7 counterexample: a concrete check-in whose final metadata save fails
(`metaWritable = false`, so `save_metadata` returns `-1` on the resulting
state) yet check-in reports success by returning version number 1 > 0. -/
theorem c7_counterexample :
    (checkin_file ⟨0, []⟩ ⟨[("a.txt".data, [104])], [], none, false⟩
      "a.txt".data "c".data 5).1 = 1 ∧
    (save_metadata
      (checkin_file ⟨0, []⟩ ⟨[("a.txt".data, [104])], [], none, false⟩
        "a.txt".data "c".data 5).2.1
      (checkin_file ⟨0, []⟩ ⟨[("a.txt".data, [104])], [], none, false⟩
        "a.txt".data "c".data 5).2.2).1 = -1 ∧
    (checkin_file ⟨0, []⟩ ⟨[("a.txt".data, [104])], [], none, false⟩
      "a.txt".data "c".data 5).2.2.metaFile = none := by decide

/-- C5 (amended): `load_metadata` always reports success; an absent file
leaves the (fresh, empty) history unchanged; a line that is empty, a
comment, or carries neither recognized prefix is skipped; and a `FILE=`
line missing its trailing fields still produces a record without aborting —
but the missing fields keep the uninitialized `malloc` contents (the `junk`
record), not a default/zero value. -/
theorem c5_load_tolerant :
    (∀ (repo : Repository) (fs : FS) (junk : FileVersion),
      (load_metadata repo fs junk).1 = 0) ∧
    (∀ (repo : Repository) (fs : FS) (junk : FileVersion), fs.metaFile = none →
      (load_metadata repo fs junk).2 = repo) ∧
    (∀ (junk : FileVersion) (repo : Repository) (line : CStr),
      startsWithC "TOTAL_VERSIONS=".data line = false →
      startsWithC "FILE=".data line = false →
      processLine junk repo line = repo) ∧
    (∀ (junk : FileVersion) (t : CStr), t ≠ [] → '|' ∉ t →
      parseFileLine junk t = { junk with filename := t.take 255 }) := by
  refine ⟨?_, ?_, ?_, ?_⟩
  · intro repo fs junk
    rw [load_metadata]
    cases fs.metaFile <;> rfl
  · intro repo fs junk h
    rw [load_metadata, h]
  · intro junk repo line h1 h2
    cases line with
    | nil => rfl
    | cons c rest =>
      simp only [processLine]
      split_ifs <;> simp_all
  · intro junk t ht hp
    have hsp : splitPipe t = [t] := by
      have h1 := splitPipeAux_seg t hp [] []
      simp only [List.append_nil] at h1
      rw [splitPipe, h1, splitPipeAux_last _ (by simp [ht])]
      simp
    rw [parseFileLine, hsp]
    simp [List.get?]

/-- C5 counterexample: loading the single line `FILE=x` (every field after
the filename missing) produces a record whose `version_number` is the junk
(uninitialized `malloc`) value 7 — not the default/zero value the claim
asserts. -/
theorem c5_counterexample :
    ((load_metadata ⟨0, []⟩ ⟨[], [], some "FILE=x\n".data, true⟩
        ⟨"j".data, "jh".data, 7, 8, "jc".data, 9⟩).2.version_list.map
      (fun v => v.version_number)) = [7] ∧ (7 : Int) ≠ 0 := by decide

theorem c5_load_tolerant_witness :
    parseFileLine ⟨"j".data, "jh".data, 7, 8, "jc".data, 9⟩ "x".data =
      { filename := "x".data, hash := "jh".data, version_number := 7, timestamp := 8,
        comment := "jc".data, file_size := 9 } :=
  (c5_load_tolerant.2.2.2 ⟨"j".data, "jh".data, 7, 8, "jc".data, 9⟩ "x".data
    (by decide) (by decide)).trans (by decide)

/-- C8 (amended): the Hasher's output on fixed content depends on the
wall-clock time only through `time % 10000`: two check-ins of byte-identical
content receive different hash strings exactly when their times differ
modulo 10000.  In particular two check-ins 10000 seconds apart (or in the
same second) get the *same* string, so "always different" fails. -/
theorem c8_hash_time_dependence (content : List Nat) (t1 t2 : Nat) :
    hashChars content t1 = hashChars content t2 ↔ t1 % 10000 = t2 % 10000 := by
  constructor
  · intro h
    have h2 : natToChars (t1 % 10000) = natToChars (t2 % 10000) :=
      List.append_cancel_left h
    have h3 := congrArg (List.foldl (fun a c => a * 10 + (c.toNat - 48)) 0) h2
    rw [natToChars, natToChars, digitsCore10_value _ _ (Nat.lt_succ_self _),
      digitsCore10_value _ _ (Nat.lt_succ_self _)] at h3
    exact h3
  · intro h
    unfold hashChars
    rw [h]

/-- C8 counterexample: byte-identical content checked in at the two distinct
wall-clock times 0 and 10000 produces *identical* hash strings, refuting
"two check-ins of byte-identical content produce different hash strings". -/
theorem c8_counterexample :
    hashChars [104] 0 = hashChars [104] 10000 ∧ (0 : Nat) ≠ 10000 := by decide

/-- C2 (amended): for a history of well-formed records (nonempty filenames of
at most 255 chars, hash at most 63, comment at most 511, no `'|'` or newline
in any text field — the conditions under which the C buffers and the
pipe/line format are faithful), loading what `save_metadata` wrote into a
fresh repository restores `total_versions` and exactly the original records,
but in **reversed** list order: `load(save(h)) = reverse h` (equality as
multisets, not as sequences), because `save_metadata` writes the list head
first while `load_metadata` prepends each parsed line. -/
theorem c2_save_load_reverses (repo : Repository) (fs : FS) (junk : FileVersion)
    (t0 : Int) (hwf : wfRepo repo) (hw : fs.metaWritable = true) :
    (load_metadata { total_versions := t0, version_list := [] }
        (save_metadata repo fs).2 junk).2.version_list = repo.version_list.reverse ∧
    (load_metadata { total_versions := t0, version_list := [] }
        (save_metadata repo fs).2 junk).2.total_versions = repo.total_versions := by
  rw [load_of_save repo fs junk t0 hwf hw]
  exact ⟨rfl, rfl⟩

/-- C2 counterexample: a two-record history (comments contain no `'|'`)
comes back from save-then-load in the opposite order, refuting
`load(save(history)) == history` as stated. -/
theorem c2_counterexample :
    (load_metadata ⟨0, []⟩
        (save_metadata ⟨2, [⟨"a".data, "h1".data, 2, 6, "c1".data, 1⟩,
                            ⟨"a".data, "h2".data, 1, 5, "c2".data, 1⟩]⟩
          ⟨[], [], none, true⟩).2
        ⟨"j".data, "jh".data, 7, 8, "jc".data, 9⟩).2.version_list
      = [⟨"a".data, "h2".data, 1, 5, "c2".data, 1⟩,
         ⟨"a".data, "h1".data, 2, 6, "c1".data, 1⟩] ∧
    ([⟨"a".data, "h2".data, 1, 5, "c2".data, 1⟩,
      ⟨"a".data, "h1".data, 2, 6, "c1".data, 1⟩] : List FileVersion)
      ≠ [⟨"a".data, "h1".data, 2, 6, "c1".data, 1⟩,
         ⟨"a".data, "h2".data, 1, 5, "c2".data, 1⟩] := by decide

theorem c2_save_load_reverses_witness :
    wfRepo ⟨1, [⟨"a".data, "h1".data, 1, 5, "c1".data, 1⟩]⟩ ∧
    (load_metadata { total_versions := 0, version_list := [] }
        (save_metadata ⟨1, [⟨"a".data, "h1".data, 1, 5, "c1".data, 1⟩]⟩
          ⟨[], [], none, true⟩).2
        ⟨"j".data, "jh".data, 7, 8, "jc".data, 9⟩).2.version_list
      = [⟨"a".data, "h1".data, 1, 5, "c1".data, 1⟩].reverse :=
  ⟨by decide,
   (c2_save_load_reverses ⟨1, [⟨"a".data, "h1".data, 1, 5, "c1".data, 1⟩]⟩
      ⟨[], [], none, true⟩ ⟨"j".data, "jh".data, 7, 8, "jc".data, 9⟩ 0
      (by decide) rfl).1⟩

theorem digitsCore_len (b : Nat) (hb : 2 ≤ b) :
    ∀ (k fuel n : Nat), n < fuel → n < b ^ k → 1 ≤ k →
      (digitsCore b fuel n []).length ≤ k := by
  intro k
  induction k with
  | zero => intro fuel n _ _ hk; omega
  | succ k ih =>
    intro fuel n hfuel hn _
    cases fuel with
    | zero => omega
    | succ fuel =>
      by_cases hnb : n < b
      · simp [digitsCore, hnb]
      · have hk1 : 1 ≤ k := by
          rcases Nat.eq_zero_or_pos k with rfl | hk
          · rw [pow_one] at hn; omega
          · exact hk
        simp only [digitsCore, if_neg hnb]
        rw [digitsCore_factor_acc, List.length_append]
        have hdiv : n / b < fuel := by
          have := Nat.div_lt_self (show 0 < n by omega) (show 1 < b by omega)
          omega
        have hdivk : n / b < b ^ k := by
          rw [Nat.div_lt_iff_lt_mul (show 0 < b by omega)]
          calc n < b ^ (k + 1) := hn
          _ = b ^ k * b := by ring
        have := ih fuel (n / b) hdiv hdivk hk1
        simp only [List.length_cons, List.length_nil]
        omega

theorem natToChars_len (n k : Nat) (hn : n < 10 ^ k) (hk : 1 ≤ k) :
    (natToChars n).length ≤ k :=
  digitsCore_len 10 (by omega) k (n + 1) n (Nat.lt_succ_self n) hn hk

theorem intToChars_len_lt_pow9 (N : Int) (h0 : 0 ≤ N) (h : N < 1000000000) :
    (intToChars N).length ≤ 9 := by
  rw [intToChars, if_neg (by omega)]
  refine natToChars_len N.toNat 9 ?_ (by omega)
  omega

/-- C3: a successful rollback to an existing version N of f (the record and
its snapshot exist) appends exactly one new record — with version number
M = latestVersion(f) + 1, comment `"Rollback to version N"`, f's name, and a
stored snapshot for version M whose content equals version N's stored
content — and the rest of the history is exactly the old history, unaltered
and in order: rollback never truncates, it grows the history by one. -/
theorem c3_rollback_grows_history (repo : Repository) (fs : FS) (f : CStr) (N : Int)
    (now : Nat) (fv : FileVersion) (target : List Nat)
    (hfind : find_file_version repo f N = some fv)
    (hsnap : lookupSnap fs.snapshots f N = some target)
    (hslash : '/' ∉ f) (hlen : f.length ≤ 255)
    (hNlo : 0 ≤ N) (hNhi : N < 1000000000) :
    (rollback_to_version repo fs f N now).1 = 0 ∧
    (rollback_to_version repo fs f N now).2.1.version_list =
      { filename := f
        hash := (hashChars target now).take 63
        version_number := get_latest_version repo f + 1
        timestamp := (now : Int)
        comment := "Rollback to version ".data ++ intToChars N
        file_size := (target.length : Int) } :: repo.version_list ∧
    lookupSnap (rollback_to_version repo fs f N now).2.2.snapshots f
      (get_latest_version repo f + 1) = some target := by
  have hnn := get_latest_version_nonneg repo f
  have hlen20 : ("Rollback to version ".data : CStr).length = 20 := rfl
  have hcomlen : ("Rollback to version ".data ++ intToChars N).length ≤ 511 := by
    rw [List.length_append, hlen20]
    have := intToChars_len_lt_pow9 N hNlo hNhi
    omega
  rw [rollback_to_version, hfind]
  simp only
  rw [restore_version_file, hsnap]
  simp only
  rw [if_neg (by omega : ¬ ((0 : Int) ≠ 0))]
  have hlook : lookupWork ({ fs with workFiles := (f, target) :: fs.workFiles } : FS).workFiles f
      = some target := lookupWork_cons_self fs.workFiles f target
  rw [checkin_file_success repo _ f ("Rollback to version ".data ++ intToChars N) now target hlook]
  simp only
  rw [if_pos (by omega : get_latest_version repo f + 1 > 0)]
  refine ⟨rfl, ?_, ?_⟩
  · simp only [checkinRecord]
    rw [List.take_of_length_le hlen, List.take_of_length_le hcomlen]
  · rw [save_metadata_snapshots]
    simp only
    rw [basenameC_no_slash f hslash]
    exact lookupSnap_cons_self fs.snapshots f (get_latest_version repo f + 1) target

theorem c3_rollback_grows_history_witness :
    find_file_version ⟨1, [⟨"a.txt".data, "h1".data, 1, 0, "c".data, 1⟩]⟩ "a.txt".data 1
      = some ⟨"a.txt".data, "h1".data, 1, 0, "c".data, 1⟩ ∧
    (rollback_to_version ⟨1, [⟨"a.txt".data, "h1".data, 1, 0, "c".data, 1⟩]⟩
        ⟨[("a.txt".data, [104])], [(("a.txt".data, 1), [105])], none, true⟩
        "a.txt".data 1 7).1 = 0 :=
  ⟨by decide,
   (c3_rollback_grows_history ⟨1, [⟨"a.txt".data, "h1".data, 1, 0, "c".data, 1⟩]⟩
      ⟨[("a.txt".data, [104])], [(("a.txt".data, 1), [105])], none, true⟩
      "a.txt".data 1 7 ⟨"a.txt".data, "h1".data, 1, 0, "c".data, 1⟩ [105]
      (by decide) (by decide) (by decide) (by decide) (by decide) (by decide)).1⟩

/-- C4 (amended): `list_versions` returns exactly the matching records in
version-list (insertion) order, head of the in-memory list first.  A record
just added by check-in is at the head, so within one process run the most
recent version is listed first; but `load_metadata` prepends the saved lines
in file order, so a repository reconstructed from disk lists f's records in
the REVERSE of the pre-save order — oldest first, not most-recent first. -/
theorem c4_list_order (repo : Repository) (f : CStr) :
    (list_versions repo f).2 = repo.version_list.filter (fun v => decide (v.filename = f)) ∧
    (∀ (fs : FS) (comment : CStr) (now : Nat) (content : List Nat),
      lookupWork fs.workFiles f = some content → f.length ≤ 255 →
      ((list_versions (checkin_file repo fs f comment now).2.1 f).2.map
        (fun v => v.version_number)).head? = some (get_latest_version repo f + 1)) ∧
    (∀ (fs : FS) (junk : FileVersion) (t0 : Int), wfRepo repo → fs.metaWritable = true →
      (list_versions (load_metadata { total_versions := t0, version_list := [] }
          (save_metadata repo fs).2 junk).2 f).2 = ((list_versions repo f).2).reverse) := by
  refine ⟨rfl, ?_, ?_⟩
  · intro fs comment now content h hlen
    rw [checkin_file_success repo fs f comment now content h]
    simp only [list_versions]
    rw [List.filter_cons]
    have hmatch : (decide ((checkinRecord repo f comment now content).filename = f)) = true := by
      simp [checkinRecord, List.take_of_length_le hlen]
    rw [hmatch]
    simp [checkinRecord]
  · intro fs junk t0 hwf hw
    rw [load_of_save repo fs junk t0 hwf hw]
    simp only [list_versions]
    exact List.filter_reverse _ _

/-- The reloaded repository after two successive check-ins of `a.txt`
(versions 1 then 2, metadata saved by check-in itself) is loaded back from
disk into a fresh repository. -/
def c4_reloaded_repo : Repository :=
  (load_metadata ⟨0, []⟩
    (checkin_file
      (checkin_file ⟨0, []⟩ ⟨[("a.txt".data, [104])], [], none, true⟩
        "a.txt".data "one".data 1).2.1
      (checkin_file ⟨0, []⟩ ⟨[("a.txt".data, [104])], [], none, true⟩
        "a.txt".data "one".data 1).2.2
      "a.txt".data "two".data 2).2.2
    ⟨"j".data, "jh".data, 7, 8, "jc".data, 9⟩).2

/-- C4 counterexample: after reconstructing the repository from disk, List
shows version 1 first and version 2 last — the most recently checked-in
version is listed *last*, refuting the claim for load-reconstructed
repositories. -/
theorem c4_counterexample :
    ((list_versions c4_reloaded_repo "a.txt".data).2.map (fun v => v.version_number))
      = [1, 2] ∧ (1 : Int) ≠ 2 := by decide

theorem c4_list_order_witness :
    ((list_versions (checkin_file ⟨0, []⟩ ⟨[("a.txt".data, [104])], [], none, true⟩
        "a.txt".data "one".data 1).2.1 "a.txt".data).2.map
          (fun v => v.version_number)).head?
      = some (get_latest_version ⟨0, []⟩ "a.txt".data + 1) :=
  (c4_list_order ⟨0, []⟩ "a.txt".data).2.1 ⟨[("a.txt".data, [104])], [], none, true⟩
    "one".data 1 [104] (by decide) (by decide)

/-- C1 (amended): for a well-formed filename (nonempty, at most 255 chars,
no `'|'` and no newline — names that survive the metadata line format), the
version numbers are assigned as successors of the per-file latest: starting
from latest L, k successive check-ins return L+1, …, L+k (so exactly
1, 2, 3, … from an empty repository), each check-in returns latest+1 and
makes it the new latest; and this is preserved across restarts: loading what
was saved (check-in persists the metadata itself) into a fresh repository
preserves every latest, and the next check-in of f receives latest+2
relative to the pre-save state — the next expected number, with no gap or
repeat.  (For filenames violating these conditions the property fails; see
the counterexample.) -/
theorem c1_version_numbering (f : CStr) (hne : f ≠ []) (hlen : f.length ≤ 255)
    (hcf : cleanField f) :
    (∀ (k : Nat) (repo : Repository) (fs : FS) (comment : CStr) (now : Nat)
      (content : List Nat), lookupWork fs.workFiles f = some content →
      (checkinSeq repo fs f comment now k).1 =
        (List.range k).map (fun i : Nat => get_latest_version repo f + (i : Int) + 1)) ∧
    (∀ (repo : Repository) (fs : FS) (comment : CStr) (now : Nat) (content : List Nat),
      lookupWork fs.workFiles f = some content →
      (checkin_file repo fs f comment now).1 = get_latest_version repo f + 1 ∧
      get_latest_version (checkin_file repo fs f comment now).2.1 f =
        get_latest_version repo f + 1) ∧
    (∀ (repo : Repository) (fs : FS) (junk : FileVersion) (t0 : Int),
      wfRepo repo → fs.metaWritable = true →
      get_latest_version (load_metadata ⟨t0, []⟩ (save_metadata repo fs).2 junk).2 f =
        get_latest_version repo f) ∧
    (∀ (repo : Repository) (fs fs2 : FS) (junk : FileVersion) (t0 : Int)
      (comment comment2 : CStr) (now now2 : Nat) (content content2 : List Nat),
      wfRepo repo → fs.metaWritable = true → cleanField comment →
      lookupWork fs.workFiles f = some content →
      lookupWork fs2.workFiles f = some content2 →
      (checkin_file (load_metadata ⟨t0, []⟩
          (checkin_file repo fs f comment now).2.2 junk).2
        fs2 f comment2 now2).1 = get_latest_version repo f + 2) := by
  have hglv_load : ∀ (repo : Repository) (fs : FS) (junk : FileVersion) (t0 : Int),
      wfRepo repo → fs.metaWritable = true →
      get_latest_version (load_metadata ⟨t0, []⟩ (save_metadata repo fs).2 junk).2 f =
        get_latest_version repo f := by
    intro repo fs junk t0 hwf hw
    rw [load_of_save repo fs junk t0 hwf hw]
    exact foldl_glv_reverse f repo.version_list 0
  refine ⟨fun k => checkinSeq_versions f hlen k, ?_, hglv_load, ?_⟩
  · intro repo fs comment now content h
    constructor
    · rw [checkin_file_success repo fs f comment now content h]
    · exact checkin_glv repo fs f comment now content h hlen
  · intro repo fs fs2 junk t0 comment comment2 now now2 content content2
      hwf hw hcc h h2
    have hwf' : wfRepo (checkin_file repo fs f comment now).2.1 := by
      rw [checkin_file_success repo fs f comment now content h]
      intro v hv
      rcases List.mem_cons.mp hv with rfl | hv'
      · exact checkinRecord_wf repo f comment now content hne hlen hcf hcc
      · exact hwf v hv'
    have hfs' : (checkin_file repo fs f comment now).2.2 =
        (save_metadata (checkin_file repo fs f comment now).2.1
          { fs with snapshots := ((basenameC f, get_latest_version repo f + 1), content)
              :: fs.snapshots }).2 := by
      rw [checkin_file_success repo fs f comment now content h]
    have hload := hglv_load (checkin_file repo fs f comment now).2.1
      { fs with snapshots := ((basenameC f, get_latest_version repo f + 1), content)
          :: fs.snapshots } junk t0 hwf' hw
    rw [hfs', checkin_file_success _ fs2 f comment2 now2 content2 h2, hload,
      checkin_glv repo fs f comment now content h hlen]
    ring

theorem c1_version_numbering_witness :
    lookupWork [("a.txt".data, [104])] "a.txt".data = some [104] ∧
    (checkin_file ⟨0, []⟩ ⟨[("a.txt".data, [104])], [], none, true⟩
      "a.txt".data "c".data 5).1 = get_latest_version ⟨0, []⟩ "a.txt".data + 1 :=
  ⟨by decide,
   ((c1_version_numbering "a.txt".data (by decide) (by decide) (by decide)).2.1
     ⟨0, []⟩ ⟨[("a.txt".data, [104])], [], none, true⟩ "c".data 5 [104] (by decide)).1⟩

/-- C1 counterexample: the filename `a|b` (which the CLI accepts — such a
file can exist on disk) corrupts its own metadata line.  The first check-in
returns version 1 and persists; after reloading the saved metadata into a
fresh repository, the next check-in of `a|b` returns version 1 *again* — a
repeat, not the expected 2 — refuting "for every filename f". -/
theorem c1_counterexample :
    (checkin_file ⟨0, []⟩ ⟨[("a|b".data, [104])], [], none, true⟩
      "a|b".data "one".data 1).1 = 1 ∧
    (checkin_file
      (load_metadata ⟨0, []⟩
        (checkin_file ⟨0, []⟩ ⟨[("a|b".data, [104])], [], none, true⟩
          "a|b".data "one".data 1).2.2
        ⟨"j".data, "jh".data, 7, 8, "jc".data, 9⟩).2
      ⟨[("a|b".data, [104])], [], none, true⟩ "a|b".data "two".data 2).1 = 1 ∧
    (1 : Int) ≠ 2 := by decide

theorem c7_checkin_ignores_save_failure_witness :
    lookupWork [("a.txt".data, [104])] "a.txt".data = some [104] ∧
    (checkin_file ⟨0, []⟩ ⟨[("a.txt".data, [104])], [], none, false⟩
      "a.txt".data "c".data 5).1 = get_latest_version ⟨0, []⟩ "a.txt".data + 1 :=
  ⟨by decide,
   (c7_checkin_ignores_save_failure ⟨0, []⟩ ⟨[("a.txt".data, [104])], [], none, false⟩
     "a.txt".data "c".data 5 [104] (by decide) rfl).1⟩
